import Mathlib

/- Formal model of the Malta road-condition query modules (cameras.py,
   roadworks.py, weather.py): the string-normalization pipeline, the camera
   lookup, the road-closure lookup and the rain query, together with
   theorems checking the documented behaviour. Python strings are modelled
   as lists of characters; pandas substring containment and the datetime
   arithmetic are modelled explicitly. -/

namespace MaltaTraffic

/-- Python strings are modelled as lists of characters. -/
abbrev Str := List Char

/-- MT_TABLE of cameras.py: str.maketrans mapping the eight Maltese letters
    (both cases) to their plain Latin equivalents. -/
def mtFoldCam (c : Char) : Char :=
  if c = 'Ċ' then 'C' else if c = 'Ġ' then 'G' else if c = 'Ħ' then 'H' else if c = 'Ż' then 'Z'
  else if c = 'ċ' then 'c' else if c = 'ġ' then 'g' else if c = 'ħ' then 'h' else if c = 'ż' then 'z'
  else c

/-- MT_TABLE of roadworks.py: only the uppercase Maltese letters (it is
    applied after upper-casing). -/
def mtFoldRW (c : Char) : Char :=
  if c = 'Ċ' then 'C' else if c = 'Ġ' then 'G' else if c = 'Ħ' then 'H' else if c = 'Ż' then 'Z'
  else c

/-- Python str.upper, modelled on the ASCII range plus the four lowercase
    Maltese letters occurring in the data. -/
def pyUpper (c : Char) : Char :=
  if c = 'ċ' then 'Ċ' else if c = 'ġ' then 'Ġ' else if c = 'ħ' then 'Ħ' else if c = 'ż' then 'Ż'
  else if 97 ≤ c.toNat ∧ c.toNat ≤ 122 then Char.ofNat (c.toNat - 32) else c

/-- The 32 characters of Python string.punctuation; the apostrophe (39),
    backtick (96) and braces (123, 125) are given by code point. -/
def punctChars : List Char :=
  ("!\"#$%&()*+,-./:;<=>?@[\\]^_|~".toList) ++
    [Char.ofNat 39, Char.ofNat 96, Char.ofNat 123, Char.ofNat 125]

/-- Membership in string.punctuation (PUNCT_TABLE deletes these). -/
def isPunct (c : Char) : Bool := punctChars.contains c

/-- The whitespace characters removed by Python str.strip(). -/
def pySpace (c : Char) : Bool :=
  c = ' ' || c = Char.ofNat 9 || c = Char.ofNat 10 || c = Char.ofNat 13 ||
    c = Char.ofNat 11 || c = Char.ofNat 12

/-- Python str.strip(): drop leading and trailing whitespace. -/
def trim (s : Str) : Str := ((s.dropWhile pySpace).reverse.dropWhile pySpace).reverse

/-- Python substring containment (the `in` operator; also pandas
    str.contains, whose pattern is free of regex metacharacters after
    punctuation stripping, hence plain substring search). -/
def isSubstr (pat : Str) : Str → Bool
  | [] => pat.isEmpty
  | c :: t => pat.isPrefixOf (c :: t) || isSubstr pat t

def replaceAllGo (p r : Str) : Nat → Str → Str
  | _, [] => []
  | 0, s => s
  | fuel + 1, c :: cs =>
    if p.isPrefixOf (c :: cs) then r ++ replaceAllGo p r fuel ((c :: cs).drop p.length)
    else c :: replaceAllGo p r fuel cs

/-- Python str.replace: replace every non-overlapping occurrence of p by r,
    scanning left to right and resuming after each replaced occurrence.
    The fuel argument only makes the recursion structural; it never runs
    out, since each step consumes at least one character of the input. -/
def replaceAll (p r s : Str) : Str := replaceAllGo p r s.length s

/-- The normalization applied to the camera table at load time and as the
    first step of a camera query (cameras.py lines 31 and 48): Maltese
    fold, punctuation removal, upper-case. -/
def camBaseNorm (s : Str) : Str :=
  ((s.map mtFoldCam).filter (fun c => !isPunct c)).map pyUpper

/-- The full query normalization of speed_cameras (cameras.py lines 48-50):
    base normalization, removal of the literals " STREET" and "TRIQ ",
    strip, and the "BY-PASS" spelling fix. -/
def camStreetNorm (s : Str) : Str :=
  replaceAll ("BY-PASS".toList) ("BYPASS".toList)
    (trim (replaceAll ("TRIQ ".toList) [] (replaceAll (" STREET".toList) [] (camBaseNorm s))))

/-- One row of supplementary-data/speed-cameras.csv (the columns the code
    reads; missing fields are loaded as empty strings). -/
structure CameraRow where
  street_en : Str
  street_mt : Str
  street_common : Str
  locality : Str
  installation_year : Int
deriving DecidableEq

/-- Load-time normalization of one CSV row (cameras.py line 31). -/
def loadCameraRow (r : CameraRow) : CameraRow :=
  { r with
    street_en := camBaseNorm r.street_en
    street_mt := camBaseNorm r.street_mt
    street_common := camBaseNorm r.street_common
    locality := camBaseNorm r.locality }

/-- _load_speed_camera_data (cameras.py lines 22-34): normalize every row
    of the raw table, keeping the file order. -/
def loadCameras (rows : List CameraRow) : List CameraRow := rows.map loadCameraRow

/-- speed_cameras (cameras.py lines 36-51), over an explicit loaded table:
    keep the rows where the normalized query occurs in street_en, street_mt
    or street_common. -/
def speed_cameras (data : List CameraRow) (street : Str) : List CameraRow :=
  data.filter fun r =>
    isSubstr (camStreetNorm street) r.street_en || isSubstr (camStreetNorm street) r.street_mt ||
      isSubstr (camStreetNorm street) r.street_common

/-- had_speed_camera (cameras.py lines 53-67): some matching camera was
    installed in or before the given year. -/
def had_speed_camera (data : List CameraRow) (street : Str) (year : Int) : Bool :=
  !((speed_cameras data street).filter (fun r => decide (r.installation_year ≤ year))).isEmpty

/-- Python regex word character (the boundary test of STREET_FIX), over the
    ASCII-plus-folded domain the normalized strings live in. -/
def isWordChar (c : Char) : Bool := c.isAlpha || c.isDigit || c == '_'

/-- Case-insensitive prefix test, the word being given in uppercase
    (IGNORECASE matching). -/
def ciStarts : Str → Str → Bool
  | [], _ => true
  | _ :: _, [] => false
  | a :: w, c :: s => (pyUpper c == a) && ciStarts w s

/-- Right word boundary: end of string or a non-word character. -/
def rightBoundaryOk : Str → Bool
  | [] => true
  | c :: _ => !isWordChar c

/-- Try to match one word of STREET_FIX at the head of s, requiring a word
    boundary on the right; returns the matched length. -/
def tryWord (w s : Str) : Option Nat :=
  if ciStarts w s && rightBoundaryOk (s.drop w.length) then some w.length else none

/-- STREET_FIX alternation (roadworks.py line 26): triq, street, vjal,
    avenue, road. The five words start with distinct letters, so the
    alternation order cannot matter. -/
def matchWordAt (s : Str) : Option Nat :=
  (tryWord ("TRIQ".toList) s).orElse fun _ =>
  (tryWord ("STREET".toList) s).orElse fun _ =>
  (tryWord ("VJAL".toList) s).orElse fun _ =>
  (tryWord ("AVENUE".toList) s).orElse fun _ =>
  tryWord ("ROAD".toList) s

def streetFixGo (prevWord : Bool) : Nat → Str → Str
  | _, [] => []
  | 0, s => s
  | fuel + 1, c :: cs =>
    if prevWord then c :: streetFixGo (isWordChar c) fuel cs
    else
      match matchWordAt (c :: cs) with
      | some n => streetFixGo true fuel ((c :: cs).drop n)
      | none => c :: streetFixGo (isWordChar c) fuel cs

/-- STREET_FIX.sub('', street): scan left to right, removing every
    whole-word occurrence of the five street-type words (a match needs a
    non-word character, or an end of the string, on both sides; scanning
    resumes after a removed word). The fuel argument only makes the
    recursion structural and never runs out. -/
def streetFix (s : Str) : Str := streetFixGo false s.length s

/-- Rescanning s with initial word-state prev finds no whole-word
    street-word occurrence; this characterizes the output language of
    streetFix and is the invariant behind its idempotence. -/
def cleanScan (prev : Bool) : Str → Bool
  | [] => true
  | c :: cs => (prev || (matchWordAt (c :: cs)).isNone) && cleanScan (isWordChar c) cs

/-- Shared normalization of had_roadworks inputs (roadworks.py line 71):
    upper-case, then fold the uppercase Maltese letters. -/
def rwBaseNorm (s : Str) : Str := (s.map pyUpper).map mtFoldRW

/-- The street query normalization of had_roadworks (roadworks.py line 74):
    remove the street-type words, then strip. -/
def rwStreetNorm (s : Str) : Str := trim (streetFix (rwBaseNorm s))

/-- A Python datetime: civil (wall-clock) fields plus an optional UTC
    offset in seconds; tz = none models a naive datetime. -/
structure DateTime where
  year : Int
  month : Int
  day : Int
  hour : Int
  minute : Int
  second : Int
  tz : Option Int
deriving DecidableEq

/-- Days since 1970-01-01 of a proleptic-Gregorian civil date (the
    standard era-based conversion; all divisions are floor divisions). -/
def daysFromCivil (y m d : Int) : Int :=
  let y1 : Int := if m ≤ 2 then y - 1 else y
  let era : Int := Int.fdiv y1 400
  let yoe : Int := y1 - era * 400
  let mp : Int := (m + 9).emod 12
  let doy : Int := Int.fdiv (153 * mp + 2) 5 + d - 1
  let doe : Int := yoe * 365 + Int.fdiv yoe 4 - Int.fdiv yoe 100 + doy
  era * 146097 + doe - 719468

/-- Seconds since the epoch of the civil fields, ignoring the offset. -/
def naiveSecs (t : DateTime) : Int :=
  daysFromCivil t.year t.month t.day * 86400 + t.hour * 3600 + t.minute * 60 + t.second

/-- The instant (UTC seconds) of a datetime; Python compares aware
    datetimes by instant. A missing offset counts as zero, but
    had_roadworks only ever compares aware values. -/
def instantOf (t : DateTime) : Int := naiveSecs t - (t.tz.getD 0)

/-- Day number of the last Sunday of a 31-day month: epoch day 0 was a
    Thursday, so day numbers with (d + 4) mod 7 = 0 are Sundays. -/
def lastSundayDay (y m : Int) : Int :=
  let last := daysFromCivil y m 31
  last - (last + 4).emod 7

/-- Models the Europe/Malta entry of the timezone database used by
    pandas tz_localize: UTC+1 (CET), switching to UTC+2 (CEST) between the
    last Sunday of March at 02:00 local and the last Sunday of October at
    03:00 local (the EU daylight-saving rule). Returns the offset in
    seconds to attach to a naive local time. -/
def maltaOffset (t : DateTime) : Int :=
  let c := naiveSecs t
  let dstStart := lastSundayDay t.year 3 * 86400 + 2 * 3600
  let dstStop := lastSundayDay t.year 10 * 86400 + 3 * 3600
  if dstStart ≤ c ∧ c < dstStop then 7200 else 3600

/-- pandas to_datetime(...).tz_localize applied by had_roadworks when the
    timestamp is naive (roadworks.py lines 82-83); aware timestamps are
    left untouched. -/
def localizeMalta (t : DateTime) : DateTime :=
  match t.tz with
  | some _ => t
  | none => { t with tz := some (maltaOffset t) }

/-- One parsed closure record (the result of parse_roadworks_data). -/
structure ClosureRec where
  locality_name : Str
  street_name : Str
  from_date : DateTime
  to_date : DateTime
  id : Int
deriving DecidableEq

/-- The attributes object of one feature of full-road-closures.json; the
    two ISO dates are modelled as already-parsed datetimes
    (datetime.fromisoformat is library code). -/
structure RwAttr where
  rw_LocalityName : Str
  rw_StreetFullname : Str
  rw_DateFrom : DateTime
  rw_DateTo : DateTime
  rw_id : Int

/-- Letters after which a hyphen-space is collapsed by the article fix. -/
def isArticleChar (c : Char) : Bool :=
  pyUpper c == 'L' || pyUpper c == 'R' || pyUpper c == 'S' || pyUpper c == 'T' ||
    pyUpper c == 'X' || pyUpper c == 'Z'

/-- The article-spacing fix of parse_roadworks_data (roadworks.py line 47):
    re.sub replacing "([LRSTXZ])- " by the letter and hyphen,
    case-insensitive, scanning left to right. -/
def articleFix : Str → Str
  | [] => []
  | c :: '-' :: ' ' :: rest2 =>
    if isArticleChar c then c :: '-' :: articleFix rest2
    else c :: articleFix ('-' :: ' ' :: rest2)
  | c :: rest => c :: articleFix rest

/-- parse_roadworks_data (roadworks.py lines 33-51). -/
def parse_roadworks_data (a : RwAttr) : ClosureRec :=
  { locality_name := rwBaseNorm a.rw_LocalityName
    street_name := rwBaseNorm (articleFix a.rw_StreetFullname)
    from_date := a.rw_DateFrom
    to_date := a.rw_DateTo
    id := a.rw_id }

/-- had_roadworks (roadworks.py lines 53-91), over an explicit closure
    list: normalize the query, localize a naive timestamp to Europe/Malta,
    and return whether some record is matched by locality containment,
    street containment and inclusive interval membership. -/
def had_roadworks (closures : List ClosureRec) (locality street : Str) (ts : DateTime) : Bool :=
  closures.any fun c =>
    isSubstr (rwBaseNorm locality) c.locality_name &&
      isSubstr (rwStreetNorm street) c.street_name &&
      decide (instantOf c.from_date ≤ instantOf (localizeMalta ts)) &&
      decide (instantOf (localizeMalta ts) ≤ instantOf c.to_date)

/-- One row of the daily weather table; precipitation is modelled as a
    rational number (the query only compares it with zero). -/
structure DailyRow where
  prcp : Rat

/-- rain_on_date (weather.py lines 51-64), with the external weather
    gateway (get_daily_weather_data) passed in as a fetch function: false
    on an empty result, otherwise the first precipitation value compared
    with zero. -/
def rain_on_date (fetch : DateTime → List DailyRow) (date : DateTime) : Bool :=
  match fetch date with
  | [] => false
  | r :: _ => decide (r.prcp > 0)

/-- The eight Maltese letters of the cameras.py fold table. -/
def mtChars : List Char := ['Ċ', 'Ġ', 'Ħ', 'Ż', 'ċ', 'ġ', 'ħ', 'ż']

/-- The four lowercase Maltese letters. -/
def mtLower : List Char := ['ċ', 'ġ', 'ħ', 'ż']

/-- The four uppercase Maltese letters. -/
def mtUpper : List Char := ['Ċ', 'Ġ', 'Ħ', 'Ż']

/-- u occurs as a contiguous substring of v. -/
def Sub (u v : Str) : Prop := ∃ a b, v = a ++ u ++ b

/-- Test fixture: one feature of the closure dataset (a May 2023 closure of
    Triq l-Għarusa tal-Mosta in Il-Mosta, dates carrying the +02:00 CEST
    offset). -/
def mostaAttr : RwAttr :=
  ⟨"Il-Mosta".toList, "Triq l-Għarusa tal-Mosta".toList,
    ⟨2023, 5, 1, 0, 0, 0, some 7200⟩, ⟨2023, 5, 20, 0, 0, 0, some 7200⟩, 7⟩

/-- Test fixture: the parsed Mosta closure record. -/
def mostaRec : ClosureRec := parse_roadworks_data mostaAttr

/-- Test fixture: the camera dataset row of the specification scenario. -/
def marsaRow : CameraRow := ⟨"MARSA ROAD".toList, [], [], [], 2010⟩

/-- Test fixture: a camera row whose street_en lacks the word ROAD. -/
def marsaShort : CameraRow := ⟨"Marsa".toList, [], [], [], 2010⟩

theorem sub_refl (u : Str) : Sub u u := ⟨[], [], by simp⟩

theorem sub_trans {u v w : Str} (h1 : Sub u v) (h2 : Sub v w) : Sub u w := by
  obtain ⟨a, b, rfl⟩ := h1
  obtain ⟨c, d, rfl⟩ := h2
  exact ⟨c ++ a, b ++ d, by simp⟩

theorem sub_cons {u : Str} {c : Char} {v : Str} (h : Sub u v) : Sub u (c :: v) := by
  obtain ⟨a, b, rfl⟩ := h
  exact ⟨c :: a, b, rfl⟩

theorem take_sub (v : Str) (k : Nat) : Sub (v.take k) v := ⟨[], v.drop k, by simp⟩

theorem drop_sub (v : Str) (k : Nat) : Sub (v.drop k) v := ⟨v.take k, [], by simp⟩

theorem dropWhile_sub (p : Char → Bool) (v : Str) : Sub (v.dropWhile p) v := by
  induction v with
  | nil => exact sub_refl []
  | cons c t ih =>
    by_cases h : p c
    · simpa [List.dropWhile_cons, h] using sub_cons ih
    · simpa [List.dropWhile_cons, h] using sub_refl (c :: t)

theorem sub_reverse {u v : Str} (h : Sub u v) : Sub u.reverse v.reverse := by
  obtain ⟨a, b, rfl⟩ := h
  exact ⟨b.reverse, a.reverse, by simp⟩

theorem trim_sub (s : Str) : Sub (trim s) s := by
  have h2 := dropWhile_sub pySpace (s.dropWhile pySpace).reverse
  have h3 := sub_reverse h2
  rw [List.reverse_reverse] at h3
  exact sub_trans h3 (dropWhile_sub pySpace s)

theorem sub_mem {u v : Str} (h : Sub u v) {c : Char} (hc : c ∈ u) : c ∈ v := by
  obtain ⟨a, b, rfl⟩ := h
  simp [hc]

theorem isPrefixOf_ex {p : Str} : ∀ {s : Str}, p.isPrefixOf s = true ↔ ∃ t, s = p ++ t := by
  induction p with
  | nil => intro s; simp [List.isPrefixOf]
  | cons a p ih =>
    intro s
    cases s with
    | nil => simp [List.isPrefixOf]
    | cons b t =>
      simp only [List.isPrefixOf, Bool.and_eq_true, beq_iff_eq, ih, List.cons_append,
        List.cons.injEq]
      constructor
      · rintro ⟨rfl, u, rfl⟩; exact ⟨u, rfl, rfl⟩
      · rintro ⟨u, rfl, rfl⟩; exact ⟨rfl, u, rfl⟩

theorem isPrefixOf_nil_iff {p : Str} : p.isPrefixOf [] = true ↔ p = [] := by
  cases p <;> simp [List.isPrefixOf]

theorem isSubstr_iff {u : Str} : ∀ {v : Str}, isSubstr u v = true ↔ Sub u v := by
  intro v
  induction v with
  | nil =>
    simp only [isSubstr, List.isEmpty_iff, Sub]
    constructor
    · rintro rfl; exact ⟨[], [], rfl⟩
    · rintro ⟨a, b, hab⟩
      rcases List.append_eq_nil.mp hab.symm with ⟨h1, h2⟩
      rcases List.append_eq_nil.mp h1 with ⟨-, h3⟩
      exact h3
  | cons c t ih =>
    simp only [isSubstr, Bool.or_eq_true, isPrefixOf_ex, ih]
    constructor
    · rintro (⟨w, hw⟩ | hsub)
      · exact ⟨[], w, by simpa using hw⟩
      · exact sub_cons hsub
    · rintro ⟨a, b, hab⟩
      cases a with
      | nil => exact Or.inl ⟨b, by simpa using hab⟩
      | cons a0 a1 =>
        right
        rw [List.cons_append, List.cons_append] at hab
        exact ⟨a1, b, (List.cons.injEq _ _ _ _ ▸ hab).2⟩

theorem isSubstr_nil (v : Str) : isSubstr [] v = true :=
  isSubstr_iff.mpr ⟨[], v, by simp⟩

theorem replaceAllGo_nil (p r : Str) (fuel : Nat) : replaceAllGo p r fuel [] = [] := by
  cases fuel <;> rfl

theorem replaceAllGo_no_occ {p r : Str} (hp : p ≠ []) :
    ∀ (fuel : Nat) (s : Str), s.length ≤ fuel →
      (∀ i, ¬ p.isPrefixOf (s.drop i) = true) → replaceAllGo p r fuel s = s := by
  intro fuel
  induction fuel with
  | zero =>
    intro s hs _
    rw [List.length_eq_zero.mp (Nat.le_zero.mp hs)]
    exact replaceAllGo_nil p r 0
  | succ n ih =>
    intro s hs hno
    cases s with
    | nil => exact replaceAllGo_nil p r (n + 1)
    | cons c cs =>
      have h0 : ¬ p.isPrefixOf (c :: cs) = true := by simpa using hno 0
      rw [replaceAllGo, if_neg h0]
      have hlen : cs.length ≤ n := by simp [List.length_cons] at hs; omega
      rw [ih cs hlen fun i => by simpa [List.drop_succ_cons] using hno (i + 1)]

theorem replaceAllGo_suffix_only {p : Str} (hp : p ≠ []) :
    ∀ (fuel : Nat) (s : Str), s.length ≤ fuel →
      (∀ i, p.isPrefixOf (s.drop i) = true → i + p.length = s.length) →
      replaceAllGo p [] fuel s = s ∨ ∃ a, s = a ++ p ∧ replaceAllGo p [] fuel s = a := by
  intro fuel
  induction fuel with
  | zero =>
    intro s hs _
    left
    rw [List.length_eq_zero.mp (Nat.le_zero.mp hs)]
    exact replaceAllGo_nil p [] 0
  | succ n ih =>
    intro s hs honly
    cases s with
    | nil => left; exact replaceAllGo_nil p [] (n + 1)
    | cons c cs =>
      by_cases h0 : p.isPrefixOf (c :: cs) = true
      · have hlen := honly 0 (by simpa using h0)
        obtain ⟨t, ht⟩ := isPrefixOf_ex.mp h0
        have ht0 : t = [] := by
          have hl := congrArg List.length ht
          simp only [List.length_cons, List.length_append] at hl
          simp only [Nat.zero_add, List.length_cons] at hlen
          rw [List.length_eq_zero.symm]
          omega
        subst ht0
        rw [List.append_nil] at ht
        right
        refine ⟨[], by simpa using ht, ?_⟩
        rw [replaceAllGo, if_pos h0, List.nil_append, ht, List.drop_length]
        exact replaceAllGo_nil p [] n
      · rw [replaceAllGo, if_neg h0]
        have hlen : cs.length ≤ n := by simp [List.length_cons] at hs; omega
        have honly2 : ∀ i, p.isPrefixOf (cs.drop i) = true → i + p.length = cs.length := by
          intro i hi
          have := honly (i + 1) (by simpa [List.drop_succ_cons] using hi)
          simp only [List.length_cons] at this
          omega
        rcases ih cs hlen honly2 with h | ⟨a, ha, hgo⟩
        · left; rw [h]
        · right
          exact ⟨c :: a, by rw [List.cons_append, ← ha], by rw [hgo]⟩

theorem replaceAllGo_head_only {p : Str} (hp : p ≠ []) (fuel : Nat) (s : Str)
    (hs : s.length ≤ fuel)
    (honly : ∀ i, p.isPrefixOf (s.drop i) = true → i = 0) :
    replaceAllGo p [] fuel s = s ∨ replaceAllGo p [] fuel s = s.drop p.length := by
  have hppos : 0 < p.length := List.length_pos.mpr hp
  cases fuel with
  | zero =>
    left
    rw [List.length_eq_zero.mp (Nat.le_zero.mp hs)]
    exact replaceAllGo_nil p [] 0
  | succ n =>
    cases s with
    | nil => left; exact replaceAllGo_nil p [] (n + 1)
    | cons c cs =>
      by_cases h0 : p.isPrefixOf (c :: cs) = true
      · right
        rw [replaceAllGo, if_pos h0, List.nil_append]
        apply replaceAllGo_no_occ hp n
        · simp only [List.length_drop, List.length_cons] at *
          omega
        · intro i hi
          rw [List.drop_drop] at hi
          have := honly (p.length + i) hi
          omega
      · left
        rw [replaceAllGo, if_neg h0]
        have hlen : cs.length ≤ n := by simp [List.length_cons] at hs; omega
        rw [replaceAllGo_no_occ hp n cs hlen ?_]
        intro i hi
        have := honly (i + 1) (by simpa [List.drop_succ_cons] using hi)
        omega

theorem replaceAll_no_occ {p r s : Str} (hp : p ≠ [])
    (hno : ∀ i, ¬ p.isPrefixOf (s.drop i) = true) : replaceAll p r s = s :=
  replaceAllGo_no_occ hp s.length s le_rfl hno

theorem replaceAll_suffix_only {p s : Str} (hp : p ≠ [])
    (honly : ∀ i, p.isPrefixOf (s.drop i) = true → i + p.length = s.length) :
    replaceAll p [] s = s ∨ ∃ a, s = a ++ p ∧ replaceAll p [] s = a :=
  replaceAllGo_suffix_only hp s.length s le_rfl honly

theorem replaceAll_head_only {p s : Str} (hp : p ≠ [])
    (honly : ∀ i, p.isPrefixOf (s.drop i) = true → i = 0) :
    replaceAll p [] s = s ∨ replaceAll p [] s = s.drop p.length :=
  replaceAllGo_head_only hp s.length s le_rfl honly

theorem charOfNat_toNat {n : Nat} (h : n < 55296) : (Char.ofNat n).toNat = n := by
  simp [Char.ofNat, Nat.isValidChar, Char.ofNatAux, Char.toNat, h]
  simp [UInt32.toNat]

theorem pyUpper_image (c : Char) :
    pyUpper c ∉ mtLower ∧ ¬(97 ≤ (pyUpper c).toNat ∧ (pyUpper c).toNat ≤ 122) := by
  unfold pyUpper
  split_ifs with h1 h2 h3 h4 h5
  · exact ⟨by decide, by decide⟩
  · exact ⟨by decide, by decide⟩
  · exact ⟨by decide, by decide⟩
  · exact ⟨by decide, by decide⟩
  · have hv : c.toNat - 32 < 55296 := by omega
    have ht := charOfNat_toNat hv
    have hmt : ∀ y ∈ mtLower, 267 ≤ Char.toNat y := by decide
    constructor
    · intro hmem
      have h6 := hmt _ hmem
      rw [ht] at h6
      omega
    · rw [ht]
      omega
  · refine ⟨?_, h5⟩
    simp only [mtLower, List.mem_cons, List.not_mem_nil, or_false, not_or]
    exact ⟨h1, h2, h3, h4⟩

theorem pyUpper_fix {x : Char} (h1 : x ∉ mtLower)
    (h2 : ¬(97 ≤ x.toNat ∧ x.toNat ≤ 122)) : pyUpper x = x := by
  simp only [mtLower, List.mem_cons, List.not_mem_nil, or_false, not_or] at h1
  obtain ⟨e1, e2, e3, e4⟩ := h1
  unfold pyUpper
  rw [if_neg e1, if_neg e2, if_neg e3, if_neg e4, if_neg h2]

theorem pyUpper_idem (c : Char) : pyUpper (pyUpper c) = pyUpper c :=
  pyUpper_fix (pyUpper_image c).1 (pyUpper_image c).2

theorem pyUpper_dash {c : Char} (h : pyUpper c = '-') : c = '-' := by
  unfold pyUpper at h
  split_ifs at h with h1 h2 h3 h4 h5
  · exact absurd h (by decide)
  · exact absurd h (by decide)
  · exact absurd h (by decide)
  · exact absurd h (by decide)
  · have hv : c.toNat - 32 < 55296 := by omega
    have ht := congrArg Char.toNat h
    rw [charOfNat_toNat hv] at ht
    have hd : Char.toNat '-' = 45 := by decide
    rw [hd] at ht
    omega
  · exact h

theorem mtFoldCam_image (a : Char) : mtFoldCam a ∉ mtChars := by
  unfold mtFoldCam
  split_ifs with h1 h2 h3 h4 h5 h6 h7 h8
  · decide
  · decide
  · decide
  · decide
  · decide
  · decide
  · decide
  · decide
  · simp only [mtChars, List.mem_cons, List.not_mem_nil, or_false, not_or]
    exact ⟨h1, h2, h3, h4, h5, h6, h7, h8⟩

theorem mtFoldCam_fix {a : Char} (h : a ∉ mtChars) : mtFoldCam a = a := by
  simp only [mtChars, List.mem_cons, List.not_mem_nil, or_false, not_or] at h
  obtain ⟨e1, e2, e3, e4, e5, e6, e7, e8⟩ := h
  unfold mtFoldCam
  rw [if_neg e1, if_neg e2, if_neg e3, if_neg e4, if_neg e5, if_neg e6, if_neg e7, if_neg e8]

theorem pyUpper_notMT {b : Char} (hb : b ∉ mtChars) : pyUpper b ∉ mtChars := by
  unfold pyUpper
  split_ifs with h1 h2 h3 h4 h5
  · exact absurd (h1 ▸ hb) (by decide)
  · exact absurd (h2 ▸ hb) (by decide)
  · exact absurd (h3 ▸ hb) (by decide)
  · exact absurd (h4 ▸ hb) (by decide)
  · have hv : b.toNat - 32 < 55296 := by omega
    have ht := charOfNat_toNat hv
    have hmt : ∀ y ∈ mtChars, 266 ≤ Char.toNat y := by decide
    intro hmem
    have h6 := hmt _ hmem
    rw [ht] at h6
    omega
  · exact hb

theorem pyUpper_notPunct {b : Char} (hb : isPunct b = false) :
    isPunct (pyUpper b) = false := by
  unfold pyUpper
  split_ifs with h1 h2 h3 h4 h5
  · decide
  · decide
  · decide
  · decide
  · have hv : b.toNat - 32 < 55296 := by omega
    have ht := charOfNat_toNat hv
    have hpn : ∀ y ∈ punctChars, Char.toNat y < 65 ∨ 90 < Char.toNat y := by decide
    cases hq : isPunct (Char.ofNat (b.toNat - 32)) with
    | false => rfl
    | true =>
      have hmem : Char.ofNat (b.toNat - 32) ∈ punctChars := List.elem_iff.mp hq
      have h6 := hpn _ hmem
      rw [ht] at h6
      omega
  · exact hb

theorem camBaseNorm_mem {x : Char} {s : Str} (hx : x ∈ camBaseNorm s) :
    x ∉ mtChars ∧ isPunct x = false ∧ pyUpper x = x := by
  unfold camBaseNorm at hx
  obtain ⟨b, hb, rfl⟩ := List.mem_map.mp hx
  obtain ⟨hbmem, hbp⟩ := List.mem_filter.mp hb
  obtain ⟨a, ha, rfl⟩ := List.mem_map.mp hbmem
  have hbp2 : isPunct (mtFoldCam a) = false := by simpa using hbp
  exact ⟨pyUpper_notMT (mtFoldCam_image a), pyUpper_notPunct hbp2, pyUpper_idem _⟩

theorem camBaseNorm_fix {s : Str}
    (h : ∀ x ∈ s, x ∉ mtChars ∧ isPunct x = false ∧ pyUpper x = x) :
    camBaseNorm s = s := by
  unfold camBaseNorm
  rw [List.map_congr_left fun a ha => mtFoldCam_fix (h a ha).1, List.map_id',
    List.filter_eq_self.mpr fun a ha => by rw [(h a ha).2.1]; rfl,
    List.map_congr_left fun a ha => (h a ha).2.2, List.map_id']

theorem camBaseNorm_idem (s : Str) : camBaseNorm (camBaseNorm s) = camBaseNorm s :=
  camBaseNorm_fix fun _ hx => camBaseNorm_mem hx

theorem dash_notin_camBaseNorm {s : Str} (h : ('-') ∈ camBaseNorm s) : False :=
  absurd (camBaseNorm_mem h).2.1 (by decide)

theorem mtFoldRW_image (a : Char) : mtFoldRW a ∉ mtUpper := by
  unfold mtFoldRW
  split_ifs with h1 h2 h3 h4
  · decide
  · decide
  · decide
  · decide
  · simp only [mtUpper, List.mem_cons, List.not_mem_nil, or_false, not_or]
    exact ⟨h1, h2, h3, h4⟩

theorem mtFoldRW_fix {a : Char} (h : a ∉ mtUpper) : mtFoldRW a = a := by
  simp only [mtUpper, List.mem_cons, List.not_mem_nil, or_false, not_or] at h
  obtain ⟨e1, e2, e3, e4⟩ := h
  unfold mtFoldRW
  rw [if_neg e1, if_neg e2, if_neg e3, if_neg e4]

theorem mtFoldRW_keeps {z : Char} (h1 : z ∉ mtLower)
    (h2 : ¬(97 ≤ z.toNat ∧ z.toNat ≤ 122)) :
    mtFoldRW z ∉ mtLower ∧ ¬(97 ≤ (mtFoldRW z).toNat ∧ (mtFoldRW z).toNat ≤ 122) := by
  unfold mtFoldRW
  split_ifs with e1 e2 e3 e4
  · exact ⟨by decide, by decide⟩
  · exact ⟨by decide, by decide⟩
  · exact ⟨by decide, by decide⟩
  · exact ⟨by decide, by decide⟩
  · exact ⟨h1, h2⟩

theorem rwBaseNorm_mem {x : Char} {s : Str} (hx : x ∈ rwBaseNorm s) :
    pyUpper x = x ∧ mtFoldRW x = x := by
  unfold rwBaseNorm at hx
  obtain ⟨b, hb, rfl⟩ := List.mem_map.mp hx
  obtain ⟨a, ha, rfl⟩ := List.mem_map.mp hb
  have him := pyUpper_image a
  have hk := mtFoldRW_keeps him.1 him.2
  exact ⟨pyUpper_fix hk.1 hk.2, mtFoldRW_fix (mtFoldRW_image _)⟩

theorem rwBaseNorm_fix {s : Str}
    (h : ∀ x ∈ s, pyUpper x = x ∧ mtFoldRW x = x) : rwBaseNorm s = s := by
  unfold rwBaseNorm
  rw [List.map_congr_left fun a ha => (h a ha).1, List.map_id',
    List.map_congr_left fun a ha => (h a ha).2, List.map_id']

theorem rwBaseNorm_idem (s : Str) : rwBaseNorm (rwBaseNorm s) = rwBaseNorm s :=
  rwBaseNorm_fix fun _ hx => rwBaseNorm_mem hx

theorem isWordChar_of_lower {c : Char} (h1 : 97 ≤ c.toNat) (h2 : c.toNat ≤ 122) :
    isWordChar c = true := by
  have hl : c.isLower = true := by
    simp only [Char.isLower, UInt32.le_def, BitVec.le_def, ge_iff_le, Bool.and_eq_true,
      decide_eq_true_eq]
    constructor
    · show (97 : UInt32).toBitVec.toNat ≤ _
      simpa [Char.toNat] using h1
    · show _ ≤ (122 : UInt32).toBitVec.toNat
      simpa [Char.toNat] using h2
  simp [isWordChar, Char.isAlpha, hl]

theorem isWordChar_of_upper {c : Char} (h1 : 65 ≤ c.toNat) (h2 : c.toNat ≤ 90) :
    isWordChar c = true := by
  have hl : c.isUpper = true := by
    simp only [Char.isUpper, UInt32.le_def, BitVec.le_def, ge_iff_le, Bool.and_eq_true,
      decide_eq_true_eq]
    constructor
    · show (65 : UInt32).toBitVec.toNat ≤ _
      simpa [Char.toNat] using h1
    · show _ ≤ (90 : UInt32).toBitVec.toNat
      simpa [Char.toNat] using h2
  simp [isWordChar, Char.isAlpha, hl]

theorem pyUpper_letter_word {a c : Char} (h1 : 65 ≤ a.toNat) (h2 : a.toNat ≤ 90)
    (h : pyUpper c = a) : isWordChar c = true := by
  unfold pyUpper at h
  split_ifs at h with e1 e2 e3 e4 e5
  · rw [← h] at h2; exact absurd h2 (by decide)
  · rw [← h] at h2; exact absurd h2 (by decide)
  · rw [← h] at h2; exact absurd h2 (by decide)
  · rw [← h] at h2; exact absurd h2 (by decide)
  · exact isWordChar_of_lower e5.1 e5.2
  · rw [← h] at h1 h2; exact isWordChar_of_upper h1 h2

theorem ciStarts_head_eq {a : Char} {w : Str} {c : Char} {s : Str}
    (h : ciStarts (a :: w) (c :: s) = true) : pyUpper c = a ∧ ciStarts w s = true := by
  simpa [ciStarts, Bool.and_eq_true, beq_iff_eq] using h

theorem ciStarts_le_len {w : Str} : ∀ {s : Str}, ciStarts w s = true → w.length ≤ s.length := by
  induction w with
  | nil => intro s _; simp
  | cons a w ih =>
    intro s h
    cases s with
    | nil => exact absurd h (by simp [ciStarts])
    | cons c t =>
      have := ih (ciStarts_head_eq h).2
      simp only [List.length_cons]
      omega

theorem ciStarts_append_right {w : Str} :
    ∀ {s : Str} (t : Str), ciStarts w s = true → ciStarts w (s ++ t) = true := by
  induction w with
  | nil => intro s t _; simp [ciStarts]
  | cons a w ih =>
    intro s t h
    cases s with
    | nil => exact absurd h (by simp [ciStarts])
    | cons c s0 =>
      obtain ⟨h1, h2⟩ := ciStarts_head_eq h
      simp [ciStarts, h1, ih t h2]

theorem ciStarts_congr {w : Str} :
    ∀ {s s1 : Str}, s.take w.length = s1.take w.length → ciStarts w s = ciStarts w s1 := by
  induction w with
  | nil => intro s s1 _; simp [ciStarts]
  | cons a w ih =>
    intro s s1 h
    cases s with
    | nil =>
      cases s1 with
      | nil => rfl
      | cons c t => simp at h
    | cons c t =>
      cases s1 with
      | nil => simp at h
      | cons c1 t1 =>
        simp only [List.length_cons, List.take_succ_cons, List.cons.injEq] at h
        simp [ciStarts, h.1, ih h.2]

theorem ciStarts_word_all {w : Str} (hw : ∀ a ∈ w, 65 ≤ a.toNat ∧ a.toNat ≤ 90) :
    ∀ {s : Str}, ciStarts w s = true → ∀ x ∈ s.take w.length, isWordChar x = true := by
  induction w with
  | nil => intro s _ x hx; simp at hx
  | cons a w ih =>
    intro s h x hx
    cases s with
    | nil => exact absurd h (by simp [ciStarts])
    | cons c t =>
      obtain ⟨h1, h2⟩ := ciStarts_head_eq h
      simp only [List.length_cons, List.take_succ_cons, List.mem_cons] at hx
      rcases hx with rfl | hx
      · exact pyUpper_letter_word (hw a (by simp)).1 (hw a (by simp)).2 h1
      · exact ih (fun b hb => hw b (by simp [hb])) h2 x hx

theorem tryWord_some_spec {w s : Str} {n : Nat} (h : tryWord w s = some n) :
    n = w.length ∧ ciStarts w s = true ∧ rightBoundaryOk (s.drop w.length) = true := by
  unfold tryWord at h
  split_ifs at h with hc
  simp only [Option.some.injEq] at h
  simp only [Bool.and_eq_true] at hc
  exact ⟨h.symm, hc.1, hc.2⟩

theorem tryWord_none_of_ci {w s : Str} (h : ciStarts w s = false) : tryWord w s = none := by
  unfold tryWord
  rw [h]
  simp

theorem tryWord_congr {w s s1 : Str} (h : s.take (w.length + 1) = s1.take (w.length + 1)) :
    tryWord w s = tryWord w s1 := by
  have ht : s.take w.length = s1.take w.length := by
    have := congrArg (List.take w.length) h
    simpa [List.take_take] using this
  have hb : rightBoundaryOk (s.drop w.length) = rightBoundaryOk (s1.drop w.length) := by
    have h1 : (s.drop w.length).take 1 = (s1.drop w.length).take 1 := by
      have := congrArg (List.drop w.length) h
      simpa [List.drop_take] using this
    cases hx : s.drop w.length with
    | nil =>
      cases hy : s1.drop w.length with
      | nil => rfl
      | cons e r => rw [hx, hy] at h1; simp at h1
    | cons e r =>
      cases hy : s1.drop w.length with
      | nil => rw [hx, hy] at h1; simp at h1
      | cons e1 r1 =>
        rw [hx, hy] at h1
        simp only [List.take_succ_cons, List.take_zero, List.cons.injEq] at h1
        simp [rightBoundaryOk, h1.1]
  unfold tryWord
  rw [ciStarts_congr ht, hb]

theorem tryWord_append_nonword {w s t : Str} {n : Nat} (h : tryWord w s = some n)
    (ht : ∀ x ∈ t, isWordChar x = false) : tryWord w (s ++ t) = some n := by
  obtain ⟨hn, hci, hbd⟩ := tryWord_some_spec h
  have hci2 := ciStarts_append_right t hci
  have hlen := ciStarts_le_len hci
  have hdrop : (s ++ t).drop w.length = s.drop w.length ++ t :=
    List.drop_append_of_le_length hlen
  have hbd2 : rightBoundaryOk ((s ++ t).drop w.length) = true := by
    rw [hdrop]
    cases hx : s.drop w.length with
    | nil =>
      cases t with
      | nil => simp [rightBoundaryOk]
      | cons d r => simpa [rightBoundaryOk] using ht d (by simp)
    | cons d r =>
      rw [hx] at hbd
      simpa [rightBoundaryOk] using hbd
  unfold tryWord
  rw [hci2, hbd2, hn]
  simp

theorem tryWord_seam {w : Str} (hw : ∀ a ∈ w, 65 ≤ a.toNat ∧ a.toNat ≤ 90)
    (Q : Str) {d : Char} (x y : Str) (hd : isWordChar d = false) :
    tryWord w (Q ++ d :: x) = tryWord w (Q ++ d :: y) := by
  by_cases hl : w.length + 1 ≤ Q.length + 1
  · have key : ∀ z : Str, (Q ++ d :: z).take (w.length + 1) = (Q ++ [d]).take (w.length + 1) := by
      intro z
      have hz : Q ++ d :: z = (Q ++ [d]) ++ z := by simp
      rw [hz, List.take_append_eq_append_take]
      have h0 : w.length + 1 - (Q ++ [d]).length = 0 := by simp; omega
      rw [h0]
      simp
    apply tryWord_congr
    rw [key x, key y]
  · have hno : ∀ z : Str, ciStarts w (Q ++ d :: z) = false := by
      intro z
      cases hc : ciStarts w (Q ++ d :: z) with
      | false => rfl
      | true =>
        have hall := ciStarts_word_all hw hc
        have hmem : d ∈ (Q ++ d :: z).take w.length := by
          rw [List.take_append_eq_append_take]
          have h1 : 1 ≤ w.length - Q.length := by omega
          have : (d :: z).take (w.length - Q.length)
              = d :: (z.take (w.length - Q.length - 1)) := by
            cases he : w.length - Q.length with
            | zero => omega
            | succ k => simp
          rw [this]
          simp
        exact absurd (hall d hmem) (by simp [hd])
    rw [tryWord_none_of_ci (hno x), tryWord_none_of_ci (hno y)]

theorem tryWord_none_head {a : Char} {w : Str} (ha : 65 ≤ a.toNat ∧ a.toNat ≤ 90)
    {d : Char} {r : Str} (hd : isWordChar d = false) : tryWord (a :: w) (d :: r) = none := by
  apply tryWord_none_of_ci
  cases hc : ciStarts (a :: w) (d :: r) with
  | false => rfl
  | true =>
    have h1 := (ciStarts_head_eq hc).1
    exact absurd (pyUpper_letter_word ha.1 ha.2 h1) (by simp [hd])

theorem matchWordAt_none_head {d : Char} {r : Str} (hd : isWordChar d = false) :
    matchWordAt (d :: r) = none := by
  have e1 : tryWord ("TRIQ".toList) (d :: r) = none := tryWord_none_head (by decide) hd
  have e2 : tryWord ("STREET".toList) (d :: r) = none := tryWord_none_head (by decide) hd
  have e3 : tryWord ("VJAL".toList) (d :: r) = none := tryWord_none_head (by decide) hd
  have e4 : tryWord ("AVENUE".toList) (d :: r) = none := tryWord_none_head (by decide) hd
  have e5 : tryWord ("ROAD".toList) (d :: r) = none := tryWord_none_head (by decide) hd
  simp only [matchWordAt, e1, e2, e3, e4, e5]
  rfl

theorem matchWordAt_seam {Q : Str} {d : Char} (x y : Str) (hd : isWordChar d = false) :
    matchWordAt (Q ++ d :: x) = matchWordAt (Q ++ d :: y) := by
  have e1 := tryWord_seam (w := "TRIQ".toList) (by decide) Q x y hd
  have e2 := tryWord_seam (w := "STREET".toList) (by decide) Q x y hd
  have e3 := tryWord_seam (w := "VJAL".toList) (by decide) Q x y hd
  have e4 := tryWord_seam (w := "AVENUE".toList) (by decide) Q x y hd
  have e5 := tryWord_seam (w := "ROAD".toList) (by decide) Q x y hd
  simp only [matchWordAt, e1, e2, e3, e4, e5]

theorem matchWordAt_some_spec {s : Str} {n : Nat} (h : matchWordAt s = some n) :
    1 ≤ n ∧ n ≤ s.length ∧ rightBoundaryOk (s.drop n) = true := by
  have key : ∀ w : Str, 1 ≤ w.length → tryWord w s = some n →
      1 ≤ n ∧ n ≤ s.length ∧ rightBoundaryOk (s.drop n) = true := by
    intro w hw htw
    obtain ⟨hn, hci, hbd⟩ := tryWord_some_spec htw
    subst hn
    exact ⟨hw, ciStarts_le_len hci, hbd⟩
  unfold matchWordAt at h
  cases h1 : tryWord ("TRIQ".toList) s with
  | some m =>
    simp only [h1, Option.orElse, Option.some.injEq] at h
    subst h
    exact key _ (by decide) h1
  | none =>
    simp only [h1, Option.orElse] at h
    cases h2 : tryWord ("STREET".toList) s with
    | some m =>
      simp only [h2, Option.orElse, Option.some.injEq] at h
      subst h
      exact key _ (by decide) h2
    | none =>
      simp only [h2, Option.orElse] at h
      cases h3 : tryWord ("VJAL".toList) s with
      | some m =>
        simp only [h3, Option.orElse, Option.some.injEq] at h
        subst h
        exact key _ (by decide) h3
      | none =>
        simp only [h3, Option.orElse] at h
        cases h4 : tryWord ("AVENUE".toList) s with
        | some m =>
          simp only [h4, Option.orElse, Option.some.injEq] at h
          subst h
          exact key _ (by decide) h4
        | none =>
          simp only [h4, Option.orElse] at h
          exact key _ (by decide) h

theorem matchWordAt_none_parts {s : Str} (h : matchWordAt s = none) :
    tryWord ("TRIQ".toList) s = none ∧ tryWord ("STREET".toList) s = none ∧
      tryWord ("VJAL".toList) s = none ∧ tryWord ("AVENUE".toList) s = none ∧
      tryWord ("ROAD".toList) s = none := by
  unfold matchWordAt at h
  cases h1 : tryWord ("TRIQ".toList) s with
  | some m =>
    simp only [h1, Option.orElse] at h
    exact absurd h (by simp)
  | none =>
    simp only [h1, Option.orElse] at h
    cases h2 : tryWord ("STREET".toList) s with
    | some m =>
      simp only [h2, Option.orElse] at h
      exact absurd h (by simp)
    | none =>
      simp only [h2, Option.orElse] at h
      cases h3 : tryWord ("VJAL".toList) s with
      | some m =>
        simp only [h3, Option.orElse] at h
        exact absurd h (by simp)
      | none =>
        simp only [h3, Option.orElse] at h
        cases h4 : tryWord ("AVENUE".toList) s with
        | some m =>
          simp only [h4, Option.orElse] at h
          exact absurd h (by simp)
        | none =>
          simp only [h4, Option.orElse] at h
          exact ⟨rfl, rfl, rfl, rfl, h⟩

theorem matchWordAt_none_of_parts {s : Str}
    (h1 : tryWord ("TRIQ".toList) s = none) (h2 : tryWord ("STREET".toList) s = none)
    (h3 : tryWord ("VJAL".toList) s = none) (h4 : tryWord ("AVENUE".toList) s = none)
    (h5 : tryWord ("ROAD".toList) s = none) : matchWordAt s = none := by
  simp only [matchWordAt, h1, h2, h3, h4, h5]
  rfl

theorem matchWordAt_none_un_append {s t : Str} (h : matchWordAt (s ++ t) = none)
    (ht : ∀ x ∈ t, isWordChar x = false) : matchWordAt s = none := by
  obtain ⟨p1, p2, p3, p4, p5⟩ := matchWordAt_none_parts h
  have k : ∀ w : Str, tryWord w (s ++ t) = none → tryWord w s = none := by
    intro w hwn
    cases hw : tryWord w s with
    | none => rfl
    | some n =>
      rw [tryWord_append_nonword hw ht] at hwn
      exact absurd hwn (by simp)
  exact matchWordAt_none_of_parts (k _ p1) (k _ p2) (k _ p3) (k _ p4) (k _ p5)

theorem streetFixGo_nil (prev : Bool) (fuel : Nat) : streetFixGo prev fuel [] = [] := by
  cases fuel <;> rfl

theorem dropWhile_head_false {p : Char → Bool} {l : List Char} {d : Char} {r : List Char}
    (h : l.dropWhile p = d :: r) : p d = false := by
  induction l with
  | nil => simp at h
  | cons c t ih =>
    rw [List.dropWhile_cons] at h
    split at h
    · exact ih h
    · obtain ⟨rfl, -⟩ := List.cons.injEq c t d r ▸ h
      simpa using ‹¬(p c = true)›

theorem streetFixGo_mem {x : Char} : ∀ (fuel : Nat) (prev : Bool) (s : Str),
    x ∈ streetFixGo prev fuel s → x ∈ s := by
  intro fuel
  induction fuel using Nat.strong_induction_on with
  | _ fuel ih =>
    intro prev s hx
    cases s with
    | nil => rw [streetFixGo_nil] at hx; exact absurd hx (by simp)
    | cons c cs =>
      cases fuel with
      | zero => exact hx
      | succ f =>
        rw [streetFixGo] at hx
        split at hx
        · rcases List.mem_cons.mp hx with rfl | hx2
          · exact List.mem_cons_self x cs
          · exact List.mem_cons_of_mem c (ih f (by omega) (isWordChar c) cs hx2)
        · split at hx
          · exact List.mem_of_mem_drop (ih f (by omega) true _ hx)
          · rcases List.mem_cons.mp hx with rfl | hx2
            · exact List.mem_cons_self x cs
            · exact List.mem_cons_of_mem c (ih f (by omega) (isWordChar c) cs hx2)

theorem go_true_all_word : ∀ (fuel : Nat) (s : Str), (∀ x ∈ s, isWordChar x = true) →
    s.length ≤ fuel → streetFixGo true fuel s = s := by
  intro fuel
  induction fuel with
  | zero =>
    intro s _ hs
    rw [List.length_eq_zero.mp (Nat.le_zero.mp hs)]
    exact streetFixGo_nil true 0
  | succ f ih =>
    intro s hw hs
    cases s with
    | nil => exact streetFixGo_nil true (f + 1)
    | cons c cs =>
      rw [streetFixGo, if_pos rfl, hw c (by simp),
        ih cs (fun x hx => hw x (by simp [hx])) (by simp at hs; omega)]

theorem go_true_seam : ∀ (Q : Str) (fuel : Nat) {d : Char} (r : Str),
    (∀ x ∈ Q, isWordChar x = true) → isWordChar d = false →
    Q.length + 1 + r.length ≤ fuel →
    ∃ f2, streetFixGo true fuel (Q ++ d :: r) = Q ++ d :: streetFixGo false f2 r
      ∧ r.length ≤ f2 := by
  intro Q
  induction Q with
  | nil =>
    intro fuel d r _ hd hlen
    cases fuel with
    | zero => exfalso; simp only [List.length_nil] at hlen; omega
    | succ f =>
      refine ⟨f, ?_, by omega⟩
      rw [List.nil_append, List.nil_append, streetFixGo, if_pos rfl, hd]
  | cons q Q ih =>
    intro fuel d r hw hd hlen
    cases fuel with
    | zero => exfalso; simp only [List.length_cons] at hlen; omega
    | succ f =>
      obtain ⟨f2, hgo, hf2⟩ := ih f r (fun x hx => hw x (by simp [hx])) hd
        (by simp only [List.length_cons] at hlen ⊢; omega)
      refine ⟨f2, ?_, hf2⟩
      rw [List.cons_append, streetFixGo, if_pos rfl, hw q (by simp), hgo]
      simp

theorem go_clean : ∀ (fuel : Nat) (prev : Bool) (s : Str), s.length ≤ fuel →
    cleanScan prev (streetFixGo prev fuel s) = true := by
  intro fuel
  induction fuel using Nat.strong_induction_on with
  | _ fuel ih =>
    intro prev s hs
    cases s with
    | nil => rw [streetFixGo_nil]; rfl
    | cons c cs =>
      cases fuel with
      | zero => exfalso; simp at hs
      | succ f =>
        have hcs : cs.length ≤ f := by simp at hs; omega
        rw [streetFixGo]
        cases prev with
        | true =>
          rw [if_pos rfl]
          simp only [cleanScan, Bool.true_or, Bool.true_and]
          exact ih f (by omega) (isWordChar c) cs hcs
        | false =>
          rw [if_neg (by simp)]
          cases hm : matchWordAt (c :: cs) with
          | none =>
            simp only [hm]
            simp only [cleanScan, Bool.false_or, Bool.and_eq_true]
            refine ⟨?_, ih f (by omega) (isWordChar c) cs hcs⟩
            cases hw : isWordChar c with
            | false =>
              rw [matchWordAt_none_head hw]
              rfl
            | true =>
              rcases hD : cs.dropWhile isWordChar with _ | ⟨d, r⟩
              · have hTeq : cs.takeWhile isWordChar = cs := by
                  have h0 := List.takeWhile_append_dropWhile (p := isWordChar) (l := cs)
                  rw [hD, List.append_nil] at h0
                  exact h0
                have hall : ∀ x ∈ cs, isWordChar x = true := by
                  intro x hx
                  exact List.mem_takeWhile_imp (hTeq ▸ hx)
                rw [go_true_all_word f cs hall hcs, hm]
                rfl
              · have hd : isWordChar d = false := dropWhile_head_false hD
                have hdecomp : cs = cs.takeWhile isWordChar ++ d :: r := by
                  conv_lhs => rw [← List.takeWhile_append_dropWhile (p := isWordChar) (l := cs)]
                  rw [hD]
                have hlen2 : (cs.takeWhile isWordChar).length + 1 + r.length ≤ f := by
                  have h0 := congrArg List.length hdecomp
                  simp only [List.length_append, List.length_cons] at h0
                  omega
                obtain ⟨f2, hgo, hf2⟩ := go_true_seam (cs.takeWhile isWordChar) f r
                  (fun x hx => List.mem_takeWhile_imp hx) hd hlen2
                rw [show streetFixGo true f cs
                    = streetFixGo true f (cs.takeWhile isWordChar ++ d :: r) from by
                  rw [← hdecomp]]
                rw [hgo]
                rw [show c :: (cs.takeWhile isWordChar ++ d :: streetFixGo false f2 r)
                    = (c :: cs.takeWhile isWordChar) ++ d :: streetFixGo false f2 r from rfl]
                rw [matchWordAt_seam (streetFixGo false f2 r) r hd]
                rw [show (c :: cs.takeWhile isWordChar) ++ d :: r = c :: cs from by
                  rw [List.cons_append, ← hdecomp]]
                rw [hm]
                rfl
          | some n =>
            simp only [hm]
            obtain ⟨hn1, hn2, hbd⟩ := matchWordAt_some_spec hm
            rcases hdr : (c :: cs).drop n with _ | ⟨d, r⟩
            · rw [streetFixGo_nil]; rfl
            · have hd : isWordChar d = false := by
                rw [hdr] at hbd
                simpa [rightBoundaryOk] using hbd
              have hrlen : r.length + 1 ≤ f := by
                have h0 := congrArg List.length hdr
                simp only [List.length_drop, List.length_cons] at h0
                simp only [List.length_cons] at hn2
                omega
              cases f with
              | zero => exfalso; omega
              | succ f2 =>
                rw [streetFixGo, if_pos rfl, hd]
                simp only [cleanScan, Bool.false_or, Bool.and_eq_true]
                constructor
                · rw [matchWordAt_none_head hd]
                  rfl
                · rw [hd]
                  exact ih f2 (by omega) false r (by omega)

theorem cleanScan_fix : ∀ (fuel : Nat) (prev : Bool) (s : Str), s.length ≤ fuel →
    cleanScan prev s = true → streetFixGo prev fuel s = s := by
  intro fuel
  induction fuel with
  | zero =>
    intro prev s hs _
    rw [List.length_eq_zero.mp (Nat.le_zero.mp hs)]
    exact streetFixGo_nil prev 0
  | succ f ih =>
    intro prev s hs hc
    cases s with
    | nil => exact streetFixGo_nil prev (f + 1)
    | cons c cs =>
      have hcs : cs.length ≤ f := by simp at hs; omega
      simp only [cleanScan, Bool.and_eq_true] at hc
      rw [streetFixGo]
      cases prev with
      | true =>
        rw [if_pos rfl, ih (isWordChar c) cs hcs hc.2]
      | false =>
        rw [if_neg (by simp)]
        have hm : matchWordAt (c :: cs) = none := by
          have h0 := hc.1
          simp only [Bool.false_or, Option.isNone_iff_eq_none] at h0
          exact h0
        simp only [hm]
        rw [ih (isWordChar c) cs hcs hc.2]

theorem streetFix_clean (s : Str) : cleanScan false (streetFix s) = true :=
  go_clean s.length false s le_rfl

theorem streetFix_of_clean {s : Str} (h : cleanScan false s = true) : streetFix s = s :=
  cleanScan_fix s.length false s le_rfl h

theorem streetFix_mem {x : Char} {s : Str} (h : x ∈ streetFix s) : x ∈ s :=
  streetFixGo_mem s.length false s h

theorem pySpace_not_word {c : Char} (h : pySpace c = true) : isWordChar c = false := by
  simp only [pySpace, Bool.or_eq_true, decide_eq_true_eq] at h
  rcases h with ((((h | h) | h) | h) | h) | h <;> subst h <;> decide

theorem cleanScan_dropWhile_pySpace {s : Str} (h : cleanScan false s = true) :
    cleanScan false (s.dropWhile pySpace) = true := by
  induction s with
  | nil => simpa using h
  | cons c cs ih =>
    rw [List.dropWhile_cons]
    simp only [cleanScan, Bool.false_or, Bool.and_eq_true] at h
    by_cases hc : pySpace c = true
    · rw [if_pos hc]
      apply ih
      rw [pySpace_not_word hc] at h
      exact h.2
    · rw [if_neg hc]
      simp only [cleanScan, Bool.false_or, Bool.and_eq_true]
      exact h

theorem cleanScan_un_append {w : Str} (hw : ∀ x ∈ w, isWordChar x = false) :
    ∀ (u : Str) (prev : Bool), cleanScan prev (u ++ w) = true → cleanScan prev u = true := by
  intro u
  induction u with
  | nil => intro prev _; rfl
  | cons c u ih =>
    intro prev h
    rw [List.cons_append] at h
    simp only [cleanScan, Bool.and_eq_true, Bool.or_eq_true] at h ⊢
    refine ⟨?_, ih (isWordChar c) h.2⟩
    rcases h.1 with hp | hnone
    · exact Or.inl hp
    · right
      rw [Option.isNone_iff_eq_none] at hnone ⊢
      rw [← List.cons_append] at hnone
      exact matchWordAt_none_un_append hnone hw

theorem cleanScan_trim {s : Str} (h : cleanScan false s = true) :
    cleanScan false (trim s) = true := by
  have h2 := cleanScan_dropWhile_pySpace h
  have hdecomp : s.dropWhile pySpace
      = trim s ++ ((s.dropWhile pySpace).reverse.takeWhile pySpace).reverse := by
    conv_lhs => rw [← List.reverse_reverse (s.dropWhile pySpace),
      ← List.takeWhile_append_dropWhile (p := pySpace) (l := (s.dropWhile pySpace).reverse)]
    rw [List.reverse_append]
    rfl
  rw [hdecomp] at h2
  exact cleanScan_un_append
    (fun x hx => pySpace_not_word (List.mem_takeWhile_imp (List.mem_reverse.mp hx)))
    (trim s) false h2

theorem dropWhile_idem (p : Char → Bool) (l : List Char) :
    (l.dropWhile p).dropWhile p = l.dropWhile p := by
  induction l with
  | nil => rfl
  | cons c t ih =>
    rw [List.dropWhile_cons]
    by_cases hc : p c = true
    · rw [if_pos hc]; exact ih
    · rw [if_neg hc, List.dropWhile_cons, if_neg hc]

theorem dropWhile_drop_ex (p : Char → Bool) (l : List Char) :
    ∃ k, l.dropWhile p = l.drop k := by
  induction l with
  | nil => exact ⟨0, rfl⟩
  | cons c t ih =>
    rw [List.dropWhile_cons]
    by_cases hc : p c = true
    · obtain ⟨k, hk⟩ := ih
      exact ⟨k + 1, by rw [if_pos hc, hk]; rfl⟩
    · exact ⟨0, by rw [if_neg hc]; rfl⟩

theorem dropWhile_trim (s : Str) : (trim s).dropWhile pySpace = trim s := by
  obtain ⟨k, hk⟩ := dropWhile_drop_ex pySpace (s.dropWhile pySpace).reverse
  have htake : trim s
      = (s.dropWhile pySpace).take ((s.dropWhile pySpace).length - k) := by
    unfold trim
    rw [hk, List.drop_reverse, List.reverse_reverse]
  rw [htake]
  cases hV : s.dropWhile pySpace with
  | nil => simp
  | cons c V2 =>
    have hc : pySpace c = false := dropWhile_head_false hV
    cases hm : (c :: V2).length - k with
    | zero => simp
    | succ m =>
      rw [List.take_succ_cons, List.dropWhile_cons, if_neg (by simp [hc])]

theorem trim_idem (s : Str) : trim (trim s) = trim s := by
  have h1 : (trim s).dropWhile pySpace = trim s := dropWhile_trim s
  show (((trim s).dropWhile pySpace).reverse.dropWhile pySpace).reverse = trim s
  rw [h1]
  have h2 : (trim s).reverse = ((s.dropWhile pySpace).reverse).dropWhile pySpace := by
    unfold trim
    rw [List.reverse_reverse]
  rw [h2, dropWhile_idem, ← h2, List.reverse_reverse]

theorem rwStreetNorm_idem (s : Str) : rwStreetNorm (rwStreetNorm s) = rwStreetNorm s := by
  show trim (streetFix (rwBaseNorm (trim (streetFix (rwBaseNorm s)))))
      = trim (streetFix (rwBaseNorm s))
  have hbase : rwBaseNorm (trim (streetFix (rwBaseNorm s)))
      = trim (streetFix (rwBaseNorm s)) := by
    apply rwBaseNorm_fix
    intro x hx
    exact rwBaseNorm_mem (streetFix_mem (sub_mem (trim_sub _) hx))
  rw [hbase, streetFix_of_clean (cleanScan_trim (streetFix_clean (rwBaseNorm s))), trim_idem]

/-- Claim C1, counterexample: speed_cameras does not remove the generic
    word ROAD from the query, so the word ROAD in a query changes which
    records are returned: a row whose street_en is MARSA is returned for
    the query Marsa but not for the query Marsa Road. -/
theorem claim1_cex :
    speed_cameras (loadCameras [marsaShort]) ("Marsa Road".toList) = []
    ∧ speed_cameras (loadCameras [marsaShort]) ("Marsa".toList)
        = [⟨"MARSA".toList, [], [], [], 2010⟩] :=
  ⟨rfl, rfl⟩

/-- Claim C1, amended: the query normalization of find_cameras
    (speed_cameras) removes only the literal substrings " STREET" and
    "TRIQ " (and rewrites BY-PASS), not the generic street-type words of
    the closure lookup; the words road, avenue and vjal survive
    normalization and can change which records are returned. -/
theorem claim1_amended :
    camStreetNorm ("Marsa Road".toList) = ("MARSA ROAD".toList)
    ∧ camStreetNorm ("Vjal Santa Lucija".toList) = ("VJAL SANTA LUCIJA".toList)
    ∧ camStreetNorm ("Labour Avenue".toList) = ("LABOUR AVENUE".toList)
    ∧ speed_cameras (loadCameras [marsaShort]) ("Marsa Road".toList)
        ≠ speed_cameras (loadCameras [marsaShort]) ("Marsa".toList) :=
  ⟨rfl, rfl, rfl, by decide⟩

/-- Claim C2: had_roadworks returns true iff some loaded closure record is
    matched by all three conditions (normalized locality contained in
    locality_name, normalized street contained in street_name, and
    from_date ≤ timestamp ≤ to_date inclusive, the timestamp being
    localized first if naive); on the fixture record it is true at
    from_date and at to_date and false one second after to_date. -/
theorem claim2_closure_iff :
    (∀ (closures : List ClosureRec) (locality street : Str) (ts : DateTime),
      had_roadworks closures locality street ts = true
        ↔ ∃ c ∈ closures,
            isSubstr (rwBaseNorm locality) c.locality_name = true
            ∧ isSubstr (rwStreetNorm street) c.street_name = true
            ∧ instantOf c.from_date ≤ instantOf (localizeMalta ts)
            ∧ instantOf (localizeMalta ts) ≤ instantOf c.to_date)
    ∧ had_roadworks [mostaRec] ("Mosta".toList) ("l-Gharusa".toList)
        ⟨2023, 5, 1, 0, 0, 0, some 7200⟩ = true
    ∧ had_roadworks [mostaRec] ("Mosta".toList) ("l-Gharusa".toList)
        ⟨2023, 5, 20, 0, 0, 0, some 7200⟩ = true
    ∧ had_roadworks [mostaRec] ("Mosta".toList) ("l-Gharusa".toList)
        ⟨2023, 5, 20, 0, 0, 1, some 7200⟩ = false := by
  refine ⟨?_, rfl, rfl, rfl⟩
  intro closures locality street ts
  simp [had_roadworks, List.any_eq_true, and_assoc]

/-- Claim C3, counterexample: had_roadworks does not strip punctuation, so
    a query street with a hyphen and the same query with the hyphen removed
    match different record sets. -/
theorem claim3_cex :
    had_roadworks [mostaRec] ("Mosta".toList) ("l-Gharusa".toList)
        ⟨2023, 5, 10, 12, 0, 0, some 7200⟩ = true
    ∧ had_roadworks [mostaRec] ("Mosta".toList) ("lGharusa".toList)
        ⟨2023, 5, 10, 12, 0, 0, some 7200⟩ = false :=
  ⟨rfl, rfl⟩

/-- Claim C3, amended: had_roadworks normalizes its inputs only by
    upper-casing, Maltese-letter folding and (for the street) street-word
    removal; punctuation is preserved on both the query side and the
    record side, so matching is sensitive to punctuation in the inputs. -/
theorem claim3_amended :
    rwBaseNorm ("Il-Mosta".toList) = ("IL-MOSTA".toList)
    ∧ rwStreetNorm ("l-Gharusa".toList) = ("L-GHARUSA".toList)
    ∧ mostaRec.street_name = ("TRIQ L-GHARUSA TAL-MOSTA".toList)
    ∧ had_roadworks [mostaRec] ("Mosta".toList) ("lGharusa".toList)
        ⟨2023, 5, 10, 12, 0, 0, some 7200⟩ = false :=
  ⟨rfl, rfl, rfl, rfl⟩

/-- Claim C4, counterexample: the replace pass of speed_cameras removes the
    literal " STREET" at every occurrence, not only as a suffix: a
    mid-string occurrence is removed rather than left unchanged. -/
theorem claim4_cex :
    camStreetNorm ("Main Street Extension".toList) = ("MAIN EXTENSION".toList)
    ∧ camStreetNorm ("Main Street Extension".toList) ≠ ("MAIN STREET EXTENSION".toList) :=
  ⟨rfl, by decide⟩

/-- Claim C4, amended: the extra pass of speed_cameras removes every
    occurrence of the literal " STREET" and of the literal "TRIQ "
    wherever they occur in the normalized query (suffix and prefix
    occurrences included), then strips whitespace; the BY-PASS rewrite
    never fires because the hyphen was already removed with the
    punctuation. -/
theorem claim4_amended :
    camStreetNorm ("Main Street Extension".toList) = ("MAIN EXTENSION".toList)
    ∧ camStreetNorm ("Valley Triq Marsa".toList) = ("VALLEY MARSA".toList)
    ∧ camStreetNorm ("Marsa Street".toList) = ("MARSA".toList)
    ∧ camStreetNorm ("Triq Marsa".toList) = ("MARSA".toList)
    ∧ camStreetNorm ("Marsa By-Pass".toList) = ("MARSA BYPASS".toList) :=
  ⟨rfl, rfl, rfl, rfl, rfl⟩

/-- Claim C5: had_speed_camera street year is true iff speed_cameras street
    yields at least one record with installation_year ≤ year; on the
    dataset row with street_en MARSA ROAD and installation_year 2010 the
    query Marsa Road is false for 2009 and true for 2010. -/
theorem claim5_had_camera :
    (∀ (data : List CameraRow) (street : Str) (year : Int),
      had_speed_camera data street year = true
        ↔ ∃ r ∈ speed_cameras data street, r.installation_year ≤ year)
    ∧ had_speed_camera (loadCameras [marsaRow]) ("Marsa Road".toList) 2009 = false
    ∧ had_speed_camera (loadCameras [marsaRow]) ("Marsa Road".toList) 2010 = true := by
  refine ⟨?_, rfl, rfl⟩
  intro data street year
  simp [had_speed_camera, List.isEmpty_iff, List.filter_eq_nil_iff]

/-- Claim C6: a timestamp without timezone information is interpreted by
    had_roadworks as Malta civil time: the query behaves exactly as the
    same civil time carrying the Europe/Malta offset in effect at that
    date, and that offset follows the daylight-saving rules (7200 s during
    CEST, 3600 s during CET, switching at the last Sundays of March and
    October). -/
theorem claim6_naive_malta :
    (∀ (closures : List ClosureRec) (locality street : Str) (ts : DateTime),
      ts.tz = none →
        had_roadworks closures locality street ts
          = had_roadworks closures locality street { ts with tz := some (maltaOffset ts) })
    ∧ maltaOffset ⟨2019, 7, 15, 12, 0, 0, none⟩ = 7200
    ∧ maltaOffset ⟨2019, 1, 15, 12, 0, 0, none⟩ = 3600
    ∧ maltaOffset ⟨2019, 3, 31, 2, 0, 0, none⟩ = 7200
    ∧ maltaOffset ⟨2019, 3, 31, 1, 59, 59, none⟩ = 3600
    ∧ maltaOffset ⟨2019, 10, 27, 3, 0, 0, none⟩ = 3600
    ∧ maltaOffset ⟨2019, 10, 27, 2, 59, 59, none⟩ = 7200 := by
  refine ⟨?_, rfl, rfl, rfl, rfl, rfl, rfl⟩
  intro closures locality street ts h
  obtain ⟨y, mo, d, hh, mi, ss, tz⟩ := ts
  cases tz with
  | none => rfl
  | some o => exact absurd h (by simp)

/-- Claim C6, witness: a concrete naive May timestamp, on the fixture
    closure list, behaves as the same civil time with the CEST offset. -/
theorem claim6_witness :
    had_roadworks [mostaRec] ("Mosta".toList) ("l-Gharusa".toList)
        ⟨2023, 5, 10, 12, 0, 0, none⟩
      = had_roadworks [mostaRec] ("Mosta".toList) ("l-Gharusa".toList)
          ⟨2023, 5, 10, 12, 0, 0, some (maltaOffset ⟨2023, 5, 10, 12, 0, 0, none⟩)⟩ :=
  claim6_naive_malta.1 [mostaRec] ("Mosta".toList) ("l-Gharusa".toList)
    ⟨2023, 5, 10, 12, 0, 0, none⟩ rfl

/-- Claim C9: rain_on_date returns false, and no error, when the weather
    gateway returns an empty result for the date, and returns true iff a
    daily precipitation value is present (first row of a nonempty result)
    and strictly positive. -/
theorem claim9_rain :
    ∀ (fetch : DateTime → List DailyRow) (d : DateTime),
      (fetch d = [] → rain_on_date fetch d = false)
      ∧ (rain_on_date fetch d = true ↔ ∃ r l, fetch d = r :: l ∧ 0 < r.prcp) := by
  intro fetch d
  constructor
  · intro h
    simp [rain_on_date, h]
  · cases hf : fetch d with
    | nil => simp [rain_on_date, hf]
    | cons r l => simp [rain_on_date, hf]

/-- Claim C9, witness: a gateway returning the empty result set gives
    false. -/
theorem claim9_witness :
    rain_on_date (fun _ => ([] : List DailyRow)) ⟨2023, 1, 1, 0, 0, 0, none⟩ = false :=
  (claim9_rain (fun _ => []) ⟨2023, 1, 1, 0, 0, 0, none⟩).1 rfl

/-- Claim C10: when the normalized query street is empty, speed_cameras
    returns the whole directory, and had_roadworks treats the street
    condition as satisfied by every record, deciding on locality and time
    alone. -/
theorem claim10_empty_query :
    (∀ (data : List CameraRow) (street : Str),
      camStreetNorm street = [] → speed_cameras data street = data)
    ∧ (∀ (closures : List ClosureRec) (locality street : Str) (ts : DateTime),
      rwStreetNorm street = [] →
        (had_roadworks closures locality street ts = true
          ↔ ∃ c ∈ closures,
              isSubstr (rwBaseNorm locality) c.locality_name = true
              ∧ instantOf c.from_date ≤ instantOf (localizeMalta ts)
              ∧ instantOf (localizeMalta ts) ≤ instantOf c.to_date)) := by
  constructor
  · intro data street h
    unfold speed_cameras
    apply List.filter_eq_self.mpr
    intro r hr
    rw [h]
    simp [isSubstr_nil]
  · intro closures locality street ts h
    simp [had_roadworks, h, isSubstr_nil, and_assoc]

/-- Claim C10, witness: the query street "Triq " normalizes to the empty
    string in the camera lookup and the lookup returns the whole table;
    the query street "Triq Road" normalizes to the empty string in the
    closure lookup and the result is decided by locality and time alone. -/
theorem claim10_witness :
    speed_cameras [marsaRow] ("Triq ".toList) = [marsaRow]
    ∧ (had_roadworks [mostaRec] ("Mosta".toList) ("Triq Road".toList)
          ⟨2023, 5, 10, 12, 0, 0, some 7200⟩ = true
        ↔ ∃ c ∈ [mostaRec],
            isSubstr (rwBaseNorm ("Mosta".toList)) c.locality_name = true
            ∧ instantOf c.from_date
                ≤ instantOf (localizeMalta ⟨2023, 5, 10, 12, 0, 0, some 7200⟩)
            ∧ instantOf (localizeMalta ⟨2023, 5, 10, 12, 0, 0, some 7200⟩)
                ≤ instantOf c.to_date) :=
  ⟨claim10_empty_query.1 [marsaRow] ("Triq ".toList) rfl,
    claim10_empty_query.2 [mostaRec] ("Mosta".toList) ("Triq Road".toList)
      ⟨2023, 5, 10, 12, 0, 0, some 7200⟩ rfl⟩

/-- Claim C8, counterexample: the camera street normalizer is not
    idempotent: removing the literal " STREET" can create a new occurrence
    of " STREET", which only a second application removes. -/
theorem claim8_cex :
    camStreetNorm (camStreetNorm ("A stre streetet B".toList))
      ≠ camStreetNorm ("A stre streetet B".toList) := by decide

/-- Claim C8, amended: the normalizers are idempotent with one exception.
    The base normalization (diacritic folding, punctuation stripping,
    upper-casing), the upper-case-and-fold normalization of the closure
    queries, and the closure street variant (whole-word removal of the five
    street-type words followed by strip) all satisfy
    normalize(normalize(x)) = normalize(x) for every input; the camera
    street variant does not, because removing the literal " STREET" can
    create a new occurrence of " STREET". -/
theorem claim8_amended :
    (∀ s : Str, camBaseNorm (camBaseNorm s) = camBaseNorm s)
    ∧ (∀ s : Str, rwBaseNorm (rwBaseNorm s) = rwBaseNorm s)
    ∧ (∀ s : Str, rwStreetNorm (rwStreetNorm s) = rwStreetNorm s)
    ∧ camStreetNorm (camStreetNorm ("A stre streetet B".toList))
        ≠ camStreetNorm ("A stre streetet B".toList) :=
  ⟨camBaseNorm_idem, rwBaseNorm_idem, rwStreetNorm_idem, by decide⟩

/-- Claim C7, counterexample: a record whose street_en contains " STREET"
    in the middle is not returned when speed_cameras is called with the
    record's own raw street_en: the query pass removes the mid-string
    " STREET", and the result is no longer a substring of the stored
    name. -/
theorem claim7_cex :
    loadCameraRow ⟨"High Street Corner".toList, [], [], [], 2012⟩
      ∉ speed_cameras (loadCameras [⟨"High Street Corner".toList, [], [], [], 2012⟩])
          ("High Street Corner".toList) := by decide

/-- Claim C7, amended: for every camera record whose normalized street_en
    contains the literal " STREET" only as a suffix (if at all) and the
    literal "TRIQ " only as a prefix (if at all), calling speed_cameras
    with the record's exact raw street_en returns a result that includes
    that (loaded) record. -/
theorem claim7_roundtrip (rows : List CameraRow) (raw : CameraRow) (hmem : raw ∈ rows)
    (h1 : ∀ i < (camBaseNorm raw.street_en).length,
      (" STREET".toList).isPrefixOf ((camBaseNorm raw.street_en).drop i) = true →
        i + (" STREET".toList).length = (camBaseNorm raw.street_en).length)
    (h2 : ∀ i < (camBaseNorm raw.street_en).length,
      ("TRIQ ".toList).isPrefixOf ((camBaseNorm raw.street_en).drop i) = true → i = 0) :
    loadCameraRow raw ∈ speed_cameras (loadCameras rows) raw.street_en := by
  have hpS : (" STREET".toList : Str) ≠ [] := by decide
  have hpT : ("TRIQ ".toList : Str) ≠ [] := by decide
  have hb : ∀ (p : Str), p ≠ [] → ∀ (u : Str) (i : Nat),
      p.isPrefixOf (u.drop i) = true → i < u.length := by
    intro p hp u i hip
    by_contra hlt
    push_neg at hlt
    rw [List.drop_eq_nil_of_le hlt] at hip
    exact hp (isPrefixOf_nil_iff.mp hip)
  -- step 1: removing " STREET" leaves a prefix of the normalized name
  have hstep1 := replaceAll_suffix_only hpS
    (fun i hi => h1 i (hb _ hpS (camBaseNorm raw.street_en) i hi) hi)
  have hpre : ∃ w, camBaseNorm raw.street_en
      = replaceAll (" STREET".toList) [] (camBaseNorm raw.street_en) ++ w := by
    rcases hstep1 with h | ⟨a, haeq, haval⟩
    · exact ⟨[], by rw [h, List.append_nil]⟩
    · exact ⟨" STREET".toList, by rw [haval, ← haeq]⟩
  obtain ⟨w, hw⟩ := hpre
  -- step 2: the "TRIQ " occurrences of the remainder are still only at the head
  have h2s1 : ∀ i, ("TRIQ ".toList).isPrefixOf
      ((replaceAll (" STREET".toList) [] (camBaseNorm raw.street_en)).drop i) = true →
      i = 0 := by
    intro i hi
    obtain ⟨u, hu⟩ := isPrefixOf_ex.mp hi
    have hilen := hb _ hpT _ i hi
    have hdrop : (camBaseNorm raw.street_en).drop i
        = (replaceAll (" STREET".toList) [] (camBaseNorm raw.street_en)).drop i ++ w := by
      conv_lhs => rw [hw]
      exact List.drop_append_of_le_length (le_of_lt hilen)
    apply h2 i
    · have := congrArg List.length hw
      simp only [List.length_append] at this
      omega
    · rw [hdrop, hu, List.append_assoc]
      exact isPrefixOf_ex.mpr ⟨u ++ w, rfl⟩
  have hstep2 := replaceAll_head_only hpT h2s1
  -- the substring chain down to the trimmed string
  have hsub1 : Sub (replaceAll (" STREET".toList) [] (camBaseNorm raw.street_en))
      (camBaseNorm raw.street_en) := ⟨[], w, by simpa using hw⟩
  have hsub2 : Sub (replaceAll ("TRIQ ".toList) []
        (replaceAll (" STREET".toList) [] (camBaseNorm raw.street_en)))
      (camBaseNorm raw.street_en) := by
    rcases hstep2 with h | h
    · rw [h]; exact hsub1
    · rw [h]; exact sub_trans (drop_sub _ _) hsub1
  have hsub3 : Sub (trim (replaceAll ("TRIQ ".toList) []
        (replaceAll (" STREET".toList) [] (camBaseNorm raw.street_en))))
      (camBaseNorm raw.street_en) := sub_trans (trim_sub _) hsub2
  -- the BY-PASS rewrite cannot fire: the hyphen was stripped as punctuation
  have hnoByp : ∀ i, ¬ ("BY-PASS".toList).isPrefixOf
      ((trim (replaceAll ("TRIQ ".toList) []
        (replaceAll (" STREET".toList) [] (camBaseNorm raw.street_en)))).drop i) = true := by
    intro i hi
    obtain ⟨u, hu⟩ := isPrefixOf_ex.mp hi
    have hdash : ('-') ∈ (trim (replaceAll ("TRIQ ".toList) []
        (replaceAll (" STREET".toList) [] (camBaseNorm raw.street_en)))).drop i := by
      rw [hu]
      simp
    exact dash_notin_camBaseNorm (sub_mem (sub_trans (drop_sub _ i) hsub3) hdash)
  have hfinal : camStreetNorm raw.street_en
      = trim (replaceAll ("TRIQ ".toList) []
          (replaceAll (" STREET".toList) [] (camBaseNorm raw.street_en))) := by
    unfold camStreetNorm
    exact replaceAll_no_occ (by decide) hnoByp
  -- membership in the filtered table
  apply List.mem_filter.mpr
  refine ⟨List.mem_map_of_mem loadCameraRow hmem, ?_⟩
  have hsen : (loadCameraRow raw).street_en = camBaseNorm raw.street_en := rfl
  have hq : isSubstr (camStreetNorm raw.street_en) (loadCameraRow raw).street_en = true := by
    rw [hsen, hfinal]
    exact isSubstr_iff.mpr hsub3
  rw [hq]
  rfl

/-- Claim C7, witness: the amended round-trip at a concrete record, Triq
    San Pawl, whose TRIQ occurs only as a prefix. -/
theorem claim7_witness :
    loadCameraRow ⟨"Triq San Pawl".toList, [], [], [], 2015⟩
      ∈ speed_cameras (loadCameras [⟨"Triq San Pawl".toList, [], [], [], 2015⟩])
          (("Triq San Pawl".toList)) :=
  claim7_roundtrip [⟨"Triq San Pawl".toList, [], [], [], 2015⟩]
    ⟨"Triq San Pawl".toList, [], [], [], 2015⟩ (by decide) (by decide) (by decide)

end MaltaTraffic
